import Mathlib

/-!
Verification of `faceless_content_generator.py`.

The program turns a topic into a short vertical video: `generate_script`
produces script lines (with a fixed fallback when the text service fails),
`get_unsplash_image` / `create_image_with_text` render one 1080x1920 frame
per line (greedy word-wrap of the caption, vertically centered), and
`create_video` assigns every segment the uniform duration
`total_duration / len(script_segments)` with 0.5s crossfades at interior
boundaries, then writes the file and deletes the per-segment images.

Text is modelled at the character level (`List Char`); the float-valued
pixel widths returned by `draw.textlength` are modelled as rationals;
images fetched from the network are modelled by their pixel dimensions,
with `Option`/`Except` for the fallible external calls.
-/

/-- Python's whitespace test for `str.strip` / `str.split` (ASCII range). -/
def pyIsSpace (c : Char) : Bool :=
  c == ' ' || c == '\t' || c == '\n' || c == '\r' || c == '\x0b' || c == '\x0c'

/-- Scanner for Python's `text.split()`: `cur` is the word being built;
whitespace closes the current word, everything else extends it. -/
def wordsAux (cur : List Char) : List Char → List (List Char)
  | [] => if cur.isEmpty then [] else [cur]
  | c :: rest =>
    if pyIsSpace c then
      if cur.isEmpty then wordsAux [] rest else cur :: wordsAux [] rest
    else
      wordsAux (cur ++ [c]) rest

/-- Python `text.split()`: maximal runs of non-whitespace characters. -/
def pyWords (s : List Char) : List (List Char) := wordsAux [] s

/-- Python `' '.join(ws)`. -/
def joinWords : List (List Char) → List Char
  | [] => []
  | [w] => w
  | w :: ws => w ++ ' ' :: joinWords ws

/-- Python `s.strip()`: drop leading and trailing whitespace. -/
def pyStrip (s : List Char) : List Char :=
  (((s.dropWhile pyIsSpace).reverse).dropWhile pyIsSpace).reverse

/-- `VIDEO_SIZE = (1080, 1920)` from the configuration block. -/
def VIDEO_SIZE : ℕ × ℕ := (1080, 1920)

/-- `FONT_SIZE = 50` from the configuration block. -/
def FONT_SIZE : ℕ := 50

/-- The fixed fallback script returned when the Gemini call raises
(`generate_script`, `except` branch). -/
def fallbackScript (topic : List Char) : List (List Char) :=
  [ "Here\x27s an interesting quote about ".toList ++ topic ++ ".".toList,
    "The greatest wisdom comes from experience.".toList,
    "Philosophers have pondered this for centuries.".toList,
    "What can we learn from their insights?".toList ]

/-- `generate_script(topic)`.  The external Gemini call is modelled by its
outcome: `.error` when the call raises, `.ok text` when it returns
`response.text`.  On success the code runs
`response.text.strip().split('\n')` and keeps the stripped non-empty lines;
on any exception it returns the fixed fallback template. -/
def generate_script (topic : List Char) (response : Except (List Char) (List Char)) :
    List (List Char) :=
  match response with
  | .error _ => fallbackScript topic
  | .ok text =>
      ((List.splitOn '\n' (pyStrip text)).map pyStrip).filter (fun l => ¬ l.isEmpty)

/-- An image of the PIL library, modelled by its pixel dimensions. -/
structure PILImage where
  width : ℕ
  height : ℕ
deriving DecidableEq

/-- `get_unsplash_image(query, size)`.  The two network fetches and the
decode are modelled by their joint outcome `fetched`: `none` when any of
them raises (the `except` branch returns a solid `BACKGROUND_COLOR` canvas
of the requested size), `some img` when an image with `img`'s dimensions
was decoded.  The body resizes to the target width preserving aspect ratio
(`int(size[0] * img.height / img.width)` truncates), then either pastes the
result centered on a fresh canvas (too short) or center-crops vertically
(tall enough); `img.crop((0, top, size[0], top + size[1]))` produces a
`(right - left) x (bottom - top)` image. -/
def get_unsplash_image (fetched : Option PILImage) (size : ℕ × ℕ) : PILImage :=
  match fetched with
  | none => ⟨size.1, size.2⟩
  | some img =>
      let resized : PILImage := ⟨size.1, size.1 * img.height / img.width⟩
      if resized.height < size.2 then
        ⟨size.1, size.2⟩
      else
        let top := (resized.height - size.2) / 2
        ⟨size.1 - 0, top + size.2 - top⟩

/-- The dimensions of the frame that `create_image_with_text` saves: the
background (fetched, or the solid-color fallback of the outer `try`)
is alpha-composited with the `VIDEO_SIZE` overlay and saved.
`Image.alpha_composite` keeps the base image's dimensions. -/
def create_image_with_text (fetched : Option PILImage) : PILImage :=
  let bg := get_unsplash_image fetched VIDEO_SIZE
  ⟨bg.width, bg.height⟩

/-- One step of the greedy word-wrap loop in `create_image_with_text`:
`cur` is `current_line`; a word joins it while the measured width of the
joined candidate stays strictly under the limit, otherwise the current
line is emitted and the word starts a new one; a non-empty `current_line`
is emitted after the loop. -/
def wrapAux (width : List Char → ℚ) (limit : ℚ) :
    List (List Char) → List (List Char) → List (List Char)
  | cur, [] => if cur.isEmpty then [] else [joinWords cur]
  | cur, word :: rest =>
    if width (joinWords (cur ++ [word])) < limit then
      wrapAux width limit (cur ++ [word]) rest
    else
      joinWords cur :: wrapAux width limit [word] rest

/-- The greedy wrap of `create_image_with_text` run on a text, with the
width limit kept as a parameter. -/
def wrapTextAt (width : List Char → ℚ) (limit : ℚ) (text : List Char) :
    List (List Char) :=
  wrapAux width limit [] (pyWords text)

/-- The wrapped caption lines of `create_image_with_text`: the greedy wrap
of `text.split()` against the limit `VIDEO_SIZE[0] - 100` (50px padding on
each side), with the rendered width measured by `draw.textlength`
(modelled by the parameter `width`). -/
def wrapLines (width : List Char → ℚ) (text : List Char) : List (List Char) :=
  wrapTextAt width ((VIDEO_SIZE.1 - 100 : ℕ) : ℚ) text

/-- A measuring function that reports 200px for strings of at most nine
characters and 1000px beyond (concrete instance used to exercise the
wrap). -/
def glyphWidth (s : List Char) : ℚ := if s.length ≤ 9 then 200 else 1000

/-- A measuring function under which at most one word fits per line
(concrete instance used to exercise the wrap). -/
def narrowWidth (s : List Char) : ℚ := if s.length ≤ 1 then 0 else 1000

/-- A measuring function under which everything fits on one line
(concrete instance used to exercise the wrap). -/
def constWidth (_ : List Char) : ℚ := 200

/-- The `y_position` values at which the text-drawing loop of
`create_image_with_text` draws successive lines: each iteration draws at
`y` and then advances by `FONT_SIZE * 1.5`. -/
def drawYs (y : ℚ) : List (List Char) → List ℚ
  | [] => []
  | _ :: rest => y :: drawYs (y + FONT_SIZE * (3 / 2)) rest

/-- The vertical positions used for the wrapped caption:
`y_position = (VIDEO_SIZE[1] - (len(lines) * FONT_SIZE * 1.5)) // 2`
(Python float floor-division) followed by the drawing loop. -/
def captionYs (width : List Char → ℚ) (text : List Char) : List ℚ :=
  let lines := wrapLines width text
  drawYs (⌊((VIDEO_SIZE.2 : ℚ) - (lines.length * FONT_SIZE * (3 / 2) : ℚ)) / 2⌋ : ℤ) lines

/-- One video clip as assembled by the loop in `create_video`: an image
clip with `set_duration(segment_duration)`, plus the optional
`crossfadein` / `crossfadeout` transition lengths applied to it. -/
structure TimedClip (α : Type) where
  frame : α
  duration : ℚ
  crossfadeIn : Option ℚ
  crossfadeOut : Option ℚ
deriving DecidableEq

/-- The clip list built by `create_video(script_segments, ...)`: one image
per segment, each clip of duration `total_duration / len(script_segments)`,
with `crossfadein(0.5)` for `i > 0` and `crossfadeout(0.5)` for
`i < len(image_paths) - 1`. -/
def create_video {α : Type} (frames : List α) (total_duration : ℚ) :
    List (TimedClip α) :=
  let segment_duration := total_duration / (frames.length : ℚ)
  frames.enum.map (fun p =>
    { frame := p.2
      duration := segment_duration
      crossfadeIn := if 0 < p.1 then some (1 / 2) else none
      crossfadeOut := if p.1 < frames.length - 1 then some (1 / 2) else none })

/-- The transient artifacts of one run in the working directory:
which `scene_{i}.png` files exist, whether `output_audio.mp3` exists and
whether the output video has been written. -/
structure FSState where
  sceneFiles : List ℕ
  audioFile : Bool
  videoFile : Bool
deriving DecidableEq

/-- The file-system effect of `create_video` on a run with `n` segments:
the list comprehension saves `scene_1.png .. scene_n.png`; then
`write_videofile` either succeeds (`encodeOk`), after which the loop at the
end unlinks every image path, or raises, in which case the exception
propagates at once and the unlink loop never runs. -/
def create_video_fs (n : ℕ) (encodeOk : Bool) (fs : FSState) :
    Except FSState FSState :=
  let fs1 : FSState := { fs with sceneFiles := List.range' 1 n }
  if encodeOk then
    Except.ok { fs1 with
      videoFile := true
      sceneFiles := (List.range' 1 n).foldl (fun acc i => acc.erase i) fs1.sceneFiles }
  else
    Except.error fs1

/-- The file-system effect of `main` (from the point where
`text_to_speech` has written `output_audio.mp3`): `create_video` runs
inside `try`, any exception is caught and printed, and the `finally`
block unlinks `output_audio.mp3` if it exists — nothing else. -/
def main_run (n : ℕ) (encodeOk : Bool) : FSState :=
  let fs0 : FSState := ⟨[], true, false⟩
  match create_video_fs n encodeOk fs0 with
  | .ok fs1 => { fs1 with audioFile := false }
  | .error fs1 => { fs1 with audioFile := false }

/-- The path `create_image_with_text` saves its frame to:
`Path(f"scene_{index}.png")` — built from the segment index alone. -/
def scene_path (index : ℕ) : String := "scene_" ++ toString index ++ ".png"

/-- The audio path `main` hands to `text_to_speech`:
the fixed `Path("output_audio.mp3")`. -/
def audio_path : String := "output_audio.mp3"

/-- The per-segment image paths one pipeline invocation uses:
`create_video` saves segment `i` (1-based, via `enumerate(..., 1)`) to
`scene_path i`. -/
def run_image_paths (segments : List (List Char)) : List String :=
  (List.range' 1 segments.length).map scene_path

/-- The words of one wrapped line as the loop accumulated them: every
non-empty prefix of the line was accepted by the width test, i.e. measures
strictly under the limit. -/
def FitsRun (width : List Char → ℚ) (limit : ℚ) (curl : List (List Char)) : Prop :=
  ∀ i, 1 ≤ i → i ≤ curl.length → width (joinWords (curl.take i)) < limit

/-! ### Lemmas about the `text.split()` scanner -/

theorem wordsAux_good (s : List Char) : ∀ cur, (∀ c ∈ cur, pyIsSpace c = false) →
    ∀ w ∈ wordsAux cur s, w ≠ [] ∧ ∀ c ∈ w, pyIsSpace c = false := by
  induction s with
  | nil =>
    intro cur hcur w hw
    by_cases h : cur.isEmpty
    · simp [wordsAux, h] at hw
    · simp [wordsAux, h] at hw
      subst hw
      exact ⟨by simpa using h, hcur⟩
  | cons c rest ih =>
    intro cur hcur w hw
    by_cases hsp : pyIsSpace c
    · by_cases h : cur.isEmpty
      · rw [wordsAux, if_pos hsp, if_pos h] at hw
        exact ih [] (by simp) w hw
      · rw [wordsAux, if_pos hsp, if_neg h] at hw
        rcases List.mem_cons.1 hw with rfl | hw
        · exact ⟨by simpa using h, hcur⟩
        · exact ih [] (by simp) w hw
    · rw [wordsAux, if_neg hsp] at hw
      refine ih (cur ++ [c]) ?_ w hw
      intro d hd
      rcases List.mem_append.1 hd with hd | hd
      · exact hcur d hd
      · simp at hd
        subst hd
        simpa using hsp

theorem pyWords_good (s : List Char) :
    ∀ w ∈ pyWords s, w ≠ [] ∧ ∀ c ∈ w, pyIsSpace c = false :=
  wordsAux_good s [] (by simp)

theorem wordsAux_append (w : List Char) : ∀ cur s, (∀ c ∈ w, pyIsSpace c = false) →
    wordsAux cur (w ++ s) = wordsAux (cur ++ w) s := by
  induction w with
  | nil => simp
  | cons c w' ih =>
    intro cur s hw
    have hc : pyIsSpace c = false := hw c (by simp)
    rw [List.cons_append, wordsAux, if_neg (by simp [hc])]
    rw [ih (cur ++ [c]) s (fun d hd => hw d (by simp [hd]))]
    simp

theorem pyWords_join : ∀ ws : List (List Char),
    (∀ w ∈ ws, w ≠ [] ∧ ∀ c ∈ w, pyIsSpace c = false) →
    pyWords (joinWords ws) = ws := by
  intro ws
  induction ws with
  | nil => intro _; rfl
  | cons w vs ih =>
    intro hws
    obtain ⟨hw1, hw2⟩ := hws w (by simp)
    cases vs with
    | nil =>
      show pyWords (joinWords [w]) = [w]
      rw [joinWords]
      unfold pyWords
      rw [show w = w ++ [] from by simp, wordsAux_append w [] [] hw2]
      simp [wordsAux, hw1]
    | cons v vs' =>
      rw [show joinWords (w :: v :: vs') = w ++ ' ' :: joinWords (v :: vs') from rfl]
      unfold pyWords
      rw [wordsAux_append w _ _ hw2]
      rw [wordsAux, if_pos (by rfl), if_neg (by simpa using hw1)]
      simp only [List.nil_append]
      exact congrArg (w :: ·) (ih (fun u hu => hws u (by simp [hu])))

theorem flatten_map_singleton (l : List (List Char)) :
    (l.map (fun x => [x])).flatten = l := by
  induction l with
  | nil => rfl
  | cons x l ih => simp [ih]

/-! ### Lemmas about `str.strip()` -/

/-- A string is trimmed when neither end carries whitespace. -/
def TrimmedB (s : List Char) : Bool :=
  (match s.head? with
   | none => true
   | some c => !pyIsSpace c) &&
  (match s.getLast? with
   | none => true
   | some c => !pyIsSpace c)

theorem head?_dropWhile_not (p : Char → Bool) (l : List Char) :
    ∀ c, (l.dropWhile p).head? = some c → p c = false := by
  induction l with
  | nil => simp [List.dropWhile]
  | cons x xs ih =>
    intro c hc
    rw [List.dropWhile_cons] at hc
    by_cases hx : p x
    · rw [if_pos hx] at hc
      exact ih c hc
    · rw [if_neg hx] at hc
      simp at hc
      subst hc
      simpa using hx

theorem getLast?_dropWhile (p : Char → Bool) (l : List Char) :
    l.dropWhile p ≠ [] → (l.dropWhile p).getLast? = l.getLast? := by
  induction l with
  | nil => simp [List.dropWhile]
  | cons x xs ih =>
    intro hne
    rw [List.dropWhile_cons] at hne ⊢
    by_cases hx : p x
    · rw [if_pos hx] at hne ⊢
      have hxs : xs ≠ [] := by
        rintro rfl
        simp [List.dropWhile] at hne
      rw [ih hne]
      obtain ⟨b, l', rfl⟩ := List.exists_cons_of_ne_nil hxs
      rw [List.getLast?_cons_cons]
    · rw [if_neg hx]

theorem TrimmedB_pyStrip (s : List Char) : TrimmedB (pyStrip s) = true := by
  by_cases hne : pyStrip s = []
  · rw [hne]; rfl
  · set X := ((s.dropWhile pyIsSpace).reverse).dropWhile pyIsSpace with hX
    have hXne : X ≠ [] := by
      intro h
      apply hne
      rw [pyStrip, ← hX, h]
      rfl
    have hhead : ∀ c, (pyStrip s).head? = some c → pyIsSpace c = false := by
      intro c hc
      rw [pyStrip, ← hX, List.head?_reverse] at hc
      rw [getLast?_dropWhile _ _ hXne, List.getLast?_reverse] at hc
      exact head?_dropWhile_not _ _ c hc
    have hlast : ∀ c, (pyStrip s).getLast? = some c → pyIsSpace c = false := by
      intro c hc
      rw [pyStrip, ← hX, List.getLast?_reverse] at hc
      exact head?_dropWhile_not _ _ c hc
    obtain ⟨c, hc⟩ := Option.ne_none_iff_exists'.1
      (fun h => hne (List.head?_eq_none_iff.1 h))
    obtain ⟨d, hd⟩ := Option.ne_none_iff_exists'.1
      (fun h => hne (List.getLast?_eq_none_iff.1 h))
    rw [TrimmedB, hc, hd]
    simp [hhead c hc, hlast d hd]

/-! ### Lemmas about the greedy word-wrap -/

theorem wrapAux_line_shapes (width : List Char → ℚ) (limit : ℚ)
    (allW : List (List Char)) : ∀ ws cur, (∀ w ∈ ws, w ∈ allW) →
    (cur = [] ∨ (∃ w ∈ allW, cur = [w]) ∨ width (joinWords cur) < limit) →
    ∀ l ∈ wrapAux width limit cur ws, l = [] ∨ l ∈ allW ∨ width l < limit := by
  intro ws
  induction ws with
  | nil =>
    intro cur hws hcur l hl
    by_cases h : cur.isEmpty
    · simp [wrapAux, h] at hl
    · rw [wrapAux, if_neg h] at hl
      simp at hl
      subst hl
      rcases hcur with rfl | ⟨w, hw, rfl⟩ | hlt
      · simp at h
      · exact Or.inr (Or.inl hw)
      · exact Or.inr (Or.inr hlt)
  | cons w rest ih =>
    intro cur hws hcur l hl
    rw [wrapAux] at hl
    by_cases htest : width (joinWords (cur ++ [w])) < limit
    · rw [if_pos htest] at hl
      refine ih (cur ++ [w]) (fun u hu => hws u (by simp [hu])) ?_ l hl
      exact Or.inr (Or.inr htest)
    · rw [if_neg htest] at hl
      rcases List.mem_cons.1 hl with rfl | hl
      · rcases hcur with rfl | ⟨u, hu, rfl⟩ | hlt
        · exact Or.inl rfl
        · exact Or.inr (Or.inl hu)
        · exact Or.inr (Or.inr hlt)
      · refine ih [w] (fun u hu => hws u (by simp [hu])) ?_ l hl
        exact Or.inr (Or.inl ⟨w, hws w (by simp), rfl⟩)

theorem wrapAux_words (width : List Char → ℚ) (limit : ℚ) :
    ∀ ws cur, (∀ w ∈ cur ++ ws, w ≠ [] ∧ ∀ c ∈ w, pyIsSpace c = false) →
    ((wrapAux width limit cur ws).map pyWords).flatten = cur ++ ws := by
  intro ws
  induction ws with
  | nil =>
    intro cur hgood
    by_cases h : cur.isEmpty
    · simp [wrapAux, h, List.isEmpty_iff.1 h]
    · rw [wrapAux, if_neg h]
      simp only [List.map_cons, List.map_nil, List.flatten]
      rw [pyWords_join cur (fun u hu => hgood u (by simp [hu]))]
  | cons w rest ih =>
    intro cur hgood
    rw [wrapAux]
    by_cases htest : width (joinWords (cur ++ [w])) < limit
    · rw [if_pos htest, ih (cur ++ [w]) (by intro u hu; apply hgood; simpa using hu)]
      simp
    · rw [if_neg htest]
      simp only [List.map_cons, List.flatten_cons]
      rw [pyWords_join cur (fun u hu => hgood u (by simp [hu]))]
      rw [ih [w] (by intro u hu; apply hgood; simp at hu ⊢; tauto)]
      simp

theorem wrapAux_all_fit (width : List Char → ℚ) (limit : ℚ) :
    ∀ rest cur, cur ≠ [] →
    (∀ i, i ≤ rest.length → width (joinWords (cur ++ rest.take i)) < limit) →
    wrapAux width limit cur rest = [joinWords (cur ++ rest)] := by
  intro rest
  induction rest with
  | nil =>
    intro cur hne _
    rw [wrapAux, if_neg (by simpa using hne)]
    simp
  | cons w rest' ih =>
    intro cur hne hfit
    rw [wrapAux, if_pos (by simpa using hfit 1 (by simp))]
    rw [ih (cur ++ [w]) (by simp) ?_]
    · simp
    · intro i hi
      have := hfit (i + 1) (by simpa using hi)
      simpa [List.append_assoc] using this

theorem wrapAux_runs (width : List Char → ℚ) (limit : ℚ) :
    ∀ ws cur,
    (∀ w ∈ ws, width w < limit ∧ w ≠ [] ∧ ∀ c ∈ w, pyIsSpace c = false) →
    cur ≠ [] → FitsRun width limit cur →
    (∀ w ∈ cur, w ≠ [] ∧ ∀ c ∈ w, pyIsSpace c = false) →
    ∀ l ∈ wrapAux width limit cur ws,
      ∃ curl, l = joinWords curl ∧ curl ≠ [] ∧ FitsRun width limit curl ∧
        ∀ w ∈ curl, w ≠ [] ∧ ∀ c ∈ w, pyIsSpace c = false := by
  intro ws
  induction ws with
  | nil =>
    intro cur hws hne hfits hgood l hl
    rw [wrapAux, if_neg (by simpa using hne)] at hl
    simp at hl
    exact ⟨cur, hl, hne, hfits, hgood⟩
  | cons w rest ih =>
    intro cur hws hne hfits hgood l hl
    rw [wrapAux] at hl
    by_cases htest : width (joinWords (cur ++ [w])) < limit
    · rw [if_pos htest] at hl
      refine ih (cur ++ [w]) (fun u hu => hws u (by simp [hu])) (by simp) ?_ ?_ l hl
      · intro i h1 h2
        rcases Nat.lt_or_ge i (cur.length + 1) with hi | hi
        · have hi' : i ≤ cur.length := by omega
          rw [List.take_append_eq_append_take, Nat.sub_eq_zero_of_le hi']
          simpa using hfits i h1 hi'
        · have : i = cur.length + 1 := by
            simp at h2
            omega
          rw [this, List.take_of_length_le (by simp)]
          exact htest
      · intro u hu
        rcases List.mem_append.1 hu with hu | hu
        · exact hgood u hu
        · simp at hu
          subst hu
          exact (hws u (by simp)).2
    · rw [if_neg htest] at hl
      rcases List.mem_cons.1 hl with rfl | hl
      · exact ⟨cur, rfl, hne, hfits, hgood⟩
      · refine ih [w] (fun u hu => hws u (by simp [hu])) (by simp) ?_ ?_ l hl
        · intro i h1 h2
          simp at h2
          have : i = 1 := by omega
          subst this
          simpa [joinWords] using (hws w (by simp)).1
        · intro u hu
          simp at hu
          subst hu
          exact (hws u (by simp)).2

theorem wrap_own_line (width : List Char → ℚ) (limit : ℚ) (curl : List (List Char))
    (hne : curl ≠ []) (hfits : FitsRun width limit curl)
    (hgood : ∀ w ∈ curl, w ≠ [] ∧ ∀ c ∈ w, pyIsSpace c = false) :
    wrapTextAt width limit (joinWords curl) = [joinWords curl] := by
  rw [wrapTextAt, pyWords_join curl hgood]
  obtain ⟨u, curl', rfl⟩ := List.exists_cons_of_ne_nil hne
  rw [wrapAux, if_pos (by simpa [joinWords] using hfits 1 (by simp) (by simp))]
  simp only [List.nil_append]
  rw [wrapAux_all_fit width limit curl' [u] (by simp) ?_]
  · simp
  · intro i hi
    have := hfits (i + 1) (by omega) (by simpa using hi)
    simpa using this

theorem wrapAux_congr (w1 w2 : List Char → ℚ) (limit : ℚ)
    (h : ∀ s, w1 s = w2 s) : ∀ ws cur,
    wrapAux w1 limit cur ws = wrapAux w2 limit cur ws := by
  intro ws
  induction ws with
  | nil => intro cur; rfl
  | cons w rest ih =>
    intro cur
    rw [wrapAux, wrapAux, h (joinWords (cur ++ [w]))]
    by_cases htest : w2 (joinWords (cur ++ [w])) < limit
    · rw [if_pos htest, if_pos htest, ih]
    · rw [if_neg htest, if_neg htest, ih]

/-! ### Lemmas about the drawing positions and run cleanup -/

theorem drawYs_closed (ls : List (List Char)) : ∀ y : ℚ,
    drawYs y ls = (List.range ls.length).map
      (fun i : ℕ => y + (FONT_SIZE : ℚ) * (3 / 2) * (i : ℚ)) := by
  induction ls with
  | nil => intro y; rfl
  | cons l rest ih =>
    intro y
    rw [drawYs, ih (y + FONT_SIZE * (3 / 2))]
    rw [List.length_cons, List.range_succ_eq_map, List.map_cons, List.map_map]
    congr 1
    · push_cast
      ring
    · apply List.map_congr_left
      intro i _
      simp only [Function.comp_apply]
      push_cast
      ring

theorem foldl_erase_self : ∀ l : List ℕ, l.foldl (fun acc i => acc.erase i) l = [] := by
  have general : ∀ (l init : List ℕ), init = l →
      l.foldl (fun acc i => acc.erase i) init = [] := by
    intro l
    induction l with
    | nil => intro init h; simpa using h
    | cons a rest ih =>
      intro init h
      subst h
      rw [List.foldl_cons, List.erase_cons_head]
      exact ih rest rfl
  intro l
  exact general l l rfl

/-! ### Claim theorems -/

/-- C1: for every non-empty frame sequence and positive total audio
duration, `create_video` gives every clip the identical display duration
`total_duration / len(frames)`, so the number of clips equals the number
of frames and the per-clip durations sum to the total audio duration
(well within 1ms — the sum is exact in the rational model). -/
theorem C1_create_video_uniform_durations {α : Type} (frames : List α) (total : ℚ)
    (hne : frames ≠ []) (hpos : 0 < total) :
    (create_video frames total).length = frames.length ∧
    (∀ c ∈ create_video frames total, c.duration = total / (frames.length : ℚ)) ∧
    |((create_video frames total).map TimedClip.duration).sum - total| ≤ 1 / 1000 := by
  have hn : (frames.length : ℚ) ≠ 0 := by
    exact_mod_cast fun h => hne (List.length_eq_zero.1 h)
  have hlen : (create_video frames total).length = frames.length := by
    simp [create_video, List.enum_length]
  have hdur : ∀ c ∈ create_video frames total, c.duration = total / (frames.length : ℚ) := by
    intro c hc
    simp only [create_video] at hc
    obtain ⟨p, _, rfl⟩ := List.mem_map.1 hc
    rfl
  refine ⟨hlen, hdur, ?_⟩
  have hall : ∀ x ∈ (create_video frames total).map TimedClip.duration,
      x = total / (frames.length : ℚ) := by
    intro x hx
    obtain ⟨c, hc, rfl⟩ := List.mem_map.1 hx
    exact hdur c hc
  have hsum : ((create_video frames total).map TimedClip.duration).sum = total := by
    rw [List.sum_eq_card_nsmul _ _ hall, List.length_map, hlen, nsmul_eq_mul,
      mul_div_cancel₀ total hn]
  rw [hsum]
  simp

/-- C1 witness: six frames with the spec scenario's 42.3s audio — every
clip lasts 42.3/6 = 7.05s and the durations sum back to 42.3s. -/
theorem C1_witness :
    (([(), (), (), (), (), ()] : List Unit) ≠ []) ∧ ((0 : ℚ) < 423 / 10) ∧
    ((create_video ([(), (), (), (), (), ()] : List Unit) (423 / 10)).length
        = ([(), (), (), (), (), ()] : List Unit).length ∧
      (∀ c ∈ create_video ([(), (), (), (), (), ()] : List Unit) (423 / 10),
        c.duration = (423 / 10 : ℚ) / ((([(), (), (), (), (), ()] : List Unit).length : ℕ) : ℚ)) ∧
      |((create_video ([(), (), (), (), (), ()] : List Unit) (423 / 10)).map
          TimedClip.duration).sum - 423 / 10| ≤ 1 / 1000) :=
  ⟨by decide, by simp,
    C1_create_video_uniform_durations ([(), (), (), (), (), ()] : List Unit) (423 / 10)
      (by decide) (by simp)⟩

/-- C2: in the clip list built by `create_video` from a non-empty frame
sequence, every clip except the first gets `crossfadein(0.5)` and every
clip except the last gets `crossfadeout(0.5)`; the first clip has no
crossfade-in, the last none out, interior clips have both. -/
theorem C2_create_video_crossfade_flags {α : Type} (frames : List α) (total : ℚ)
    (hne : frames ≠ []) (i : ℕ) (hi : i < frames.length) :
    ((create_video frames total)[i]?).map TimedClip.crossfadeIn
        = some (if i = 0 then none else some (1 / 2)) ∧
    ((create_video frames total)[i]?).map TimedClip.crossfadeOut
        = some (if i = frames.length - 1 then none else some (1 / 2)) := by
  have henum : frames.enum[i]? = some (i, frames[i]) := by
    rw [List.getElem?_eq_getElem (by simpa [List.enum_length] using hi)]
    rw [List.getElem_enum]
  simp only [create_video, List.getElem?_map, henum, Option.map_some']
  constructor
  · by_cases h0 : i = 0
    · simp [h0]
    · simp [h0, Nat.pos_of_ne_zero h0]
  · by_cases hlast : i = frames.length - 1
    · simp [hlast]
    · have hlt : i < frames.length - 1 := by omega
      simp [hlast, hlt]

/-- C2 witness: three frames — the middle clip carries both transitions. -/
theorem C2_witness :
    (([(), (), ()] : List Unit) ≠ []) ∧ (1 < ([(), (), ()] : List Unit).length) ∧
    ((create_video ([(), (), ()] : List Unit) 6)[1]?).map TimedClip.crossfadeIn
        = some (some (1 / 2)) ∧
    ((create_video ([(), (), ()] : List Unit) 6)[1]?).map TimedClip.crossfadeOut
        = some (some (1 / 2)) := by
  have h := C2_create_video_crossfade_flags ([(), (), ()] : List Unit) 6 (by decide)
    1 (by decide)
  exact ⟨by decide, by decide, by simpa using h.1, by simpa using h.2⟩

/-- C3 counterexample: when the service call succeeds but the response
contains no non-empty line, `generate_script` returns the empty list, not
the fallback template the claim promises (and not a non-empty sequence). -/
theorem C3_counterexample :
    generate_script "gravity".toList (Except.ok "\n \n".toList) = [] ∧
    fallbackScript "gravity".toList ≠ [] := by
  constructor
  · decide
  · decide

theorem TrimmedB_cons_concat (a b : Char) (s : List Char)
    (ha : pyIsSpace a = false) (hb : pyIsSpace b = false) :
    TrimmedB (a :: (s ++ [b])) = true := by
  have hh : (a :: (s ++ [b])).head? = some a := rfl
  have hl : (a :: (s ++ [b])).getLast? = some b := by
    rw [show a :: (s ++ [b]) = (a :: s) ++ [b] from rfl, List.getLast?_concat]
  rw [TrimmedB, hh, hl]
  simp [ha, hb]

/-- C3 amended: on any service error `generate_script` returns the fixed
4-line fallback, whose lines are non-empty and trimmed; on a successful
call every returned line is non-empty and trimmed — but a response with no
non-empty lines yields the empty list, not the fallback. -/
theorem C3_generate_script_amended :
    (∀ topic err, generate_script topic (Except.error err) = fallbackScript topic) ∧
    (∀ topic, (fallbackScript topic).length = 4 ∧
      ∀ l ∈ fallbackScript topic, l ≠ [] ∧ TrimmedB l = true) ∧
    (∀ topic text, ∀ l ∈ generate_script topic (Except.ok text),
      l ≠ [] ∧ TrimmedB l = true) := by
  refine ⟨fun topic err => rfl, ?_, ?_⟩
  · intro topic
    refine ⟨rfl, ?_⟩
    intro l hl
    simp only [fallbackScript, List.mem_cons, List.not_mem_nil, or_false] at hl
    rcases hl with rfl | rfl | rfl | rfl
    · have hA : "Here\x27s an interesting quote about ".toList
          = 'H' :: "ere\x27s an interesting quote about ".toList := rfl
      have hB : ".".toList = ['.'] := rfl
      have hshape : "Here\x27s an interesting quote about ".toList ++ topic ++ ".".toList
          = 'H' :: (("ere\x27s an interesting quote about ".toList ++ topic) ++ ['.']) := by
        rw [hA, hB]
        simp
      rw [hshape]
      exact ⟨List.cons_ne_nil _ _, TrimmedB_cons_concat 'H' '.' _ (by decide) (by decide)⟩
    · exact ⟨by decide, by decide⟩
    · exact ⟨by decide, by decide⟩
    · exact ⟨by decide, by decide⟩
  · intro topic text l hl
    simp only [generate_script] at hl
    rw [List.mem_filter] at hl
    obtain ⟨hmem, hne⟩ := hl
    obtain ⟨raw, _, rfl⟩ := List.mem_map.1 hmem
    refine ⟨?_, TrimmedB_pyStrip raw⟩
    intro hempty
    rw [hempty] at hne
    simp at hne

/-- C3 witness: a two-line successful response — the first returned line
is non-empty and trimmed. -/
theorem C3_witness : "hi".toList ≠ [] ∧ TrimmedB "hi".toList = true :=
  C3_generate_script_amended.2.2 "t".toList "hi\nthere".toList "hi".toList (by decide)

/-- C4 counterexample: with a measuring function reporting 1000px for the
ten-character word `abcdefghij`, the greedy wrap emits that word as a line
whose measured width is not under `VIDEO_SIZE[0] - 100` (it also emits an
empty first line), so not every produced line fits the margin. -/
theorem C4_counterexample :
    ¬ ∀ l ∈ wrapLines glyphWidth "abcdefghij".toList,
      glyphWidth l < ((VIDEO_SIZE.1 - 100 : ℕ) : ℚ) := by
  decide

/-- C4 amended: every line the greedy wrap produces is either empty, a
single input word (emitted unchecked when a word alone reaches the limit),
or measures strictly under `VIDEO_SIZE[0] - 100`. -/
theorem C4_wrap_lines_amended (width : List Char → ℚ) (text : List Char) :
    ∀ l ∈ wrapLines width text,
      l = [] ∨ l ∈ pyWords text ∨ width l < ((VIDEO_SIZE.1 - 100 : ℕ) : ℚ) := by
  intro l hl
  exact wrapAux_line_shapes width ((VIDEO_SIZE.1 - 100 : ℕ) : ℚ) (pyWords text)
    (pyWords text) [] (fun w hw => hw) (Or.inl rfl) l hl

/-- C4 witness: under a 200px-constant measure the whole caption fits on
one line, and that line falls in the amended classification. -/
theorem C4_witness :
    "hi there".toList = [] ∨ "hi there".toList ∈ pyWords "hi there".toList ∨
      constWidth "hi there".toList < ((VIDEO_SIZE.1 - 100 : ℕ) : ℚ) :=
  C4_wrap_lines_amended constWidth "hi there".toList "hi there".toList (by decide)

/-- C6 counterexample: wrapping `cc abcdefghij` under a measure that
rejects ten-character joins yields the lines `cc` and `abcdefghij`;
re-wrapping those lines under the same width limit inserts an extra empty
line before the overlong word, so the breaks change. -/
theorem C6_counterexample :
    ((wrapLines glyphWidth "cc abcdefghij".toList).map
        (fun l => wrapLines glyphWidth l)).flatten
      ≠ wrapLines glyphWidth "cc abcdefghij".toList := by
  decide

/-- C6 amended: the wrap is a pure function of the measuring function,
limit and text (runs with pointwise-equal measures give identical breaks),
and re-wrapping the produced lines reproduces them exactly whenever every
individual word measures under the limit; the counterexample shows the
restriction is needed when a word reaches the limit on its own. -/
theorem C6_wrap_deterministic_idempotent (w1 w2 : List Char → ℚ) (limit : ℚ)
    (text : List Char) (hagree : ∀ s, w1 s = w2 s)
    (hfit : ∀ w ∈ pyWords text, w1 w < limit) :
    wrapTextAt w1 limit text = wrapTextAt w2 limit text ∧
    ((wrapTextAt w1 limit text).map
        (fun l => wrapTextAt w1 limit l)).flatten = wrapTextAt w1 limit text := by
  constructor
  · rw [wrapTextAt, wrapTextAt, wrapAux_congr w1 w2 limit hagree]
  · cases hpw : pyWords text with
    | nil =>
      rw [wrapTextAt, hpw]
      rfl
    | cons w rest =>
      have hgood : ∀ u ∈ pyWords text, u ≠ [] ∧ ∀ c ∈ u, pyIsSpace c = false :=
        pyWords_good text
      have hws : ∀ u ∈ rest, w1 u < limit ∧ u ≠ [] ∧ ∀ c ∈ u, pyIsSpace c = false := by
        intro u hu
        refine ⟨hfit u (by rw [hpw]; simp [hu]), (hgood u (by rw [hpw]; simp [hu])).1,
          (hgood u (by rw [hpw]; simp [hu])).2⟩
      have hw : w1 w < limit := hfit w (by rw [hpw]; simp)
      have hwgood := hgood w (by rw [hpw]; simp)
      have hstep : wrapTextAt w1 limit text = wrapAux w1 limit [w] rest := by
        rw [wrapTextAt, hpw, wrapAux, if_pos (by simpa [joinWords] using hw)]
        simp
      rw [hstep]
      have hfits1 : FitsRun w1 limit [w] := by
        intro i h1 h2
        simp at h2
        have hi1 : i = 1 := by omega
        subst hi1
        simpa [joinWords] using hw
      have hgood1 : ∀ u ∈ [w], u ≠ [] ∧ ∀ c ∈ u, pyIsSpace c = false := by
        intro u hu
        simp at hu
        subst hu
        exact hwgood
      have hlines : ∀ l ∈ wrapAux w1 limit [w] rest, wrapTextAt w1 limit l = [l] := by
        intro l hl
        obtain ⟨curl, rfl, hcne, hcfits, hcgood⟩ :=
          wrapAux_runs w1 limit rest [w] hws (by simp) hfits1 hgood1 l hl
        exact wrap_own_line w1 limit curl hcne hcfits hcgood
      calc ((wrapAux w1 limit [w] rest).map (fun l => wrapTextAt w1 limit l)).flatten
          = ((wrapAux w1 limit [w] rest).map (fun l => [l])).flatten := by
            exact congrArg List.flatten (List.map_congr_left hlines)
        _ = wrapAux w1 limit [w] rest := flatten_map_singleton _

/-- C6 witness: a caption whose two words both fit — the wrap is stable
under re-wrapping. -/
theorem C6_witness :
    (wrapTextAt constWidth 980 "hi there".toList
        = wrapTextAt constWidth 980 "hi there".toList) ∧
    ((wrapTextAt constWidth 980 "hi there".toList).map
        (fun l => wrapTextAt constWidth 980 l)).flatten
      = wrapTextAt constWidth 980 "hi there".toList :=
  C6_wrap_deterministic_idempotent constWidth constWidth 980 "hi there".toList
    (fun _ => rfl) (by decide)

/-- C7 counterexample: a caption wrapping into 7 lines at font size 50 in
a 1920px frame starts at `(1920 - 7*50*1.5) // 2 = 697` (Python float
floor-division), not at the claimed `(1920 - 7*50*1.5)/2 = 697.5`. -/
theorem C7_counterexample :
    (captionYs narrowWidth "a b c d e f g".toList).head? = some 697 ∧
    (697 : ℚ) ≠ ((VIDEO_SIZE.2 : ℚ) - 7 * (FONT_SIZE : ℚ) * (3 / 2)) / 2 := by
  have hw : wrapLines narrowWidth "a b c d e f g".toList
      = [['a'], ['b'], ['c'], ['d'], ['e'], ['f'], ['g']] := by decide
  constructor
  · have h1 : captionYs narrowWidth "a b c d e f g".toList
        = drawYs ((697 : ℤ) : ℚ) [['a'], ['b'], ['c'], ['d'], ['e'], ['f'], ['g']] := by
      simp only [captionYs]
      rw [hw]
      norm_num [VIDEO_SIZE, FONT_SIZE]
    rw [h1, drawYs]
    norm_num
  · norm_num [VIDEO_SIZE, FONT_SIZE]

/-- C7 amended: the wrapped block is centered using the floor
`(VIDEO_SIZE[1] - n*FONT_SIZE*1.5) // 2` as first position (not the exact
half), advancing by `FONT_SIZE * 1.5` per line. -/
theorem C7_caption_centering_amended (width : List Char → ℚ) (text : List Char) :
    captionYs width text = (List.range (wrapLines width text).length).map
      (fun i : ℕ =>
        ((⌊((VIDEO_SIZE.2 : ℚ)
            - ((wrapLines width text).length * FONT_SIZE * (3 / 2) : ℚ)) / 2⌋ : ℤ) : ℚ)
          + (FONT_SIZE : ℚ) * (3 / 2) * (i : ℚ)) := by
  show drawYs _ (wrapLines width text) = _
  exact drawYs_closed (wrapLines width text) _

/-- C5: whatever the fetched background's positive dimensions — resized to
the target width, then pasted centered on a canvas when too short or
center-cropped when tall enough — and also on the solid-color fallback
path, the saved frame has exactly the configured 1080x1920 resolution. -/
theorem C5_frame_resolution (fetched : Option PILImage)
    (h : ∀ img ∈ fetched, 0 < img.width ∧ 0 < img.height) :
    create_image_with_text fetched = ⟨1080, 1920⟩ := by
  cases fetched with
  | none => rfl
  | some img =>
    simp only [create_image_with_text, get_unsplash_image, VIDEO_SIZE]
    by_cases hh : 1080 * img.height / img.width < 1920
    · rw [if_pos hh]
    · rw [if_neg hh]
      show (⟨1080 - 0, (1080 * img.height / img.width - 1920) / 2 + 1920
          - (1080 * img.height / img.width - 1920) / 2⟩ : PILImage) = ⟨1080, 1920⟩
      congr 1
      omega

/-- C5 witness: an 800x600 landscape fetch — resized to 1080x810, pasted
on the canvas — yields a 1080x1920 frame. -/
theorem C5_witness :
    (∀ img ∈ (some ⟨800, 600⟩ : Option PILImage), 0 < img.width ∧ 0 < img.height) ∧
    create_image_with_text (some ⟨800, 600⟩) = ⟨1080, 1920⟩ :=
  ⟨by decide, C5_frame_resolution (some ⟨800, 600⟩) (by decide)⟩

/-- C8 counterexample: a one-segment run whose encode fails leaves
`scene_1.png` on disk — the exception skips `create_video`'s unlink loop
and `main`'s `finally` only removes the audio file, so no best-effort
cleanup of the frame images happens. -/
theorem C8_counterexample :
    (main_run 1 false).sceneFiles = [1] ∧ (main_run 1 false).sceneFiles ≠ [] := by
  constructor
  · decide
  · decide

/-- C8 amended: on success every intermediate frame image is deleted after
the video is written, and the temporary narration audio is removed in
`main`'s `finally` on success and failure alike; but on an encode failure
all frame images written by the run remain on disk. -/
theorem C8_cleanup_amended (n : ℕ) :
    ((main_run n true).sceneFiles = [] ∧ (main_run n true).videoFile = true ∧
      (main_run n true).audioFile = false) ∧
    ((main_run n false).sceneFiles = List.range' 1 n ∧
      (main_run n false).videoFile = false ∧ (main_run n false).audioFile = false) := by
  refine ⟨⟨?_, rfl, rfl⟩, rfl, rfl, rfl⟩
  show (List.range' 1 n).foldl (fun acc i => acc.erase i) (List.range' 1 n) = []
  exact foldl_erase_self _

/-- C9 counterexample: two pipeline invocations with different scripts use
exactly the same transient image path `scene_1.png` (and the same fixed
audio path), because the path is a function of the segment index alone. -/
theorem C9_counterexample :
    ["hello world".toList] ≠ ["secret topic".toList] ∧
    run_image_paths ["hello world".toList] = run_image_paths ["secret topic".toList] ∧
    scene_path 1 = "scene_1.png" ∧ audio_path = "output_audio.mp3" := by
  refine ⟨by decide, by decide, by decide, by decide⟩

/-- C9 amended: transient artifact paths are determined by the segment
index alone (`scene_{i}.png`) plus fixed names, so any two runs with
equally many segments use identical paths and can collide. -/
theorem C9_paths_amended (s1 s2 : List (List Char)) (h : s1.length = s2.length) :
    run_image_paths s1 = run_image_paths s2 := by
  rw [run_image_paths, run_image_paths, h]

/-- C9 witness: two one-segment runs with different content share their
image path list. -/
theorem C9_witness :
    (["a".toList] : List (List Char)).length = (["b".toList] : List (List Char)).length ∧
    run_image_paths ["a".toList] = run_image_paths ["b".toList] :=
  ⟨by decide, C9_paths_amended ["a".toList] ["b".toList] (by decide)⟩

/-- C10: the greedy wrap never drops, duplicates or reorders words — for
every text and measuring function, splitting the produced lines back into
words and concatenating them in order recovers `text.split()` exactly. -/
theorem C10_wrap_preserves_words (width : List Char → ℚ) (text : List Char) :
    ((wrapLines width text).map pyWords).flatten = pyWords text := by
  have h := wrapAux_words width ((VIDEO_SIZE.1 - 100 : ℕ) : ℚ) (pyWords text) []
    (by intro w hw; exact pyWords_good text w (by simpa using hw))
  simpa [wrapLines, wrapTextAt] using h
